import Mathlib

/-!
Verification of the shell-detection core and the material-assignment logic of
MayaShellMaterialAssigner (`shell_material_assigner.py`).

The shell-detection core (`get_mesh_shells`, lines 36-58 of the source) is a
breadth-first search over a face-adjacency map: the map built at lines 27-34
is a Python dict from face id to the list of adjacent face ids, accessed with
`face_connections.get(current, [])`.  We embed the dict as an association
list `List (Nat × List Nat)` and the BFS inner loop as a fuelled recursion
`bfsAux`; the fuel bound `phi` (queue length plus the adjacency lists of the
not-yet-visited keys) strictly decreases at each loop iteration, so running
with fuel `phi` (`bfsRun`) computes the loop's true fixpoint, and
`bfsRun_cons` / `bfsRun_nil` are exactly the loop's step equations.

Material assignment (`assign_random_materials_from_list`, lines 67-99) is
embedded with the Maya scene abstracted to the two queries the code makes
(`objExists`, `listConnections`) and its effects reified as a list of
`MayaAction`s; `cmds.error` aborts the function, which we model by returning
the error message alongside the actions performed before the abort.
`random.choice` is modelled by an injectable stream `rand : Nat → Nat`,
shell number `k` drawing index `rand k % length`.
-/

/-- `face_connections.get(current, [])`: association-list lookup with default
`[]`, modelling the Python dict built at lines 27-34. -/
def adjGet : List (Nat × List Nat) → Nat → List Nat
  | [], _ => []
  | p :: rest, i => if p.1 = i then p.2 else adjGet rest i

/-- Fuel bound for the BFS `while queue:` loop: the queue length plus the
total adjacency-list length over keys not yet visited.  It strictly
decreases at every iteration of the loop. -/
def phi (fc : List (Nat × List Nat)) (q : List Nat) (v : Finset Nat) : Nat :=
  q.length + ((fc.filter (fun p => p.1 ∉ v)).map (fun p => p.2.length)).sum

/-- The BFS inner loop (lines 47-57 of the source), fuelled.  State:
queue, visited set, current shell (in visit order).  One step pops the queue
head; an already-visited head is skipped, otherwise it is marked visited,
appended to the shell, and its not-yet-visited neighbours are pushed. -/
def bfsAux (fc : List (Nat × List Nat)) :
    Nat → List Nat → Finset Nat → List Nat → Finset Nat × List Nat
  | 0, _, v, s => (v, s)
  | _ + 1, [], v, s => (v, s)
  | fuel + 1, c :: rest, v, s =>
    if c ∈ v then bfsAux fc fuel rest v s
    else bfsAux fc fuel
      (rest ++ (adjGet fc c).filter (fun n => n ∉ insert c v))
      (insert c v) (s ++ [c])

/-- The BFS loop run to completion: `phi` fuel is enough (proved below), so
this is the loop's true result. -/
def bfsRun (fc : List (Nat × List Nat)) (q : List Nat) (v : Finset Nat)
    (s : List Nat) : Finset Nat × List Nat :=
  bfsAux fc (phi fc q v) q v s

/-- The outer `for i in range(face_count):` loop (lines 40-58): skip visited
ids, otherwise run a BFS seeded with `[i]` and collect the resulting shell. -/
def shellsFrom (fc : List (Nat × List Nat)) : List Nat → Finset Nat → List (List Nat)
  | [], _ => []
  | i :: rest, v =>
    if i ∈ v then shellsFrom fc rest v
    else
      let r := bfsRun fc [i] v []
      r.2 :: shellsFrom fc rest r.1

/-- The shell-detection core of `get_mesh_shells` (lines 36-58): given the
face count and the face-adjacency map, return the list of shells, each a
list of face ids in visit order. -/
def get_mesh_shells_core (face_count : Nat) (fc : List (Nat × List Nat)) :
    List (List Nat) :=
  shellsFrom fc (List.range face_count) ∅

/-- `"%s.f[%d]" % (obj_name, fid)` (line 63). -/
def format_face (obj_name : String) (fid : Nat) : String :=
  obj_name ++ ".f[" ++ toString fid ++ "]"

/-- `get_mesh_shells` result formatting (lines 60-65): each face id becomes
the component name `<obj>.f[<id>]`. -/
def get_mesh_shells (obj_name : String) (face_count : Nat)
    (fc : List (Nat × List Nat)) : List (List String) :=
  (get_mesh_shells_core face_count fc).map (fun shell => shell.map (format_face obj_name))

/-- One adjacency edge: `y` occurs in the adjacency list of `x`. -/
def adjStep (fc : List (Nat × List Nat)) (x y : Nat) : Prop :=
  y ∈ adjGet fc x

/-- Connectivity by a path of adjacency edges. -/
def Reach (fc : List (Nat × List Nat)) : Nat → Nat → Prop :=
  Relation.ReflTransGen (adjStep fc)

/-- The two Maya scene queries `assign_random_materials_from_list` makes:
`cmds.objExists(material)` and
`cmds.listConnections(material, type="shadingEngine")` (`[]` models Maya's
`None` result, which the code treats the same as an empty list). -/
structure MayaEnv where
  objExists : String → Bool
  listConnections : String → List String

/-- The observable effects of `assign_random_materials_from_list`:
a `cmds.warning`, a `cmds.sets(... empty=True, name=...)` shading-group
creation, a `cmds.connectAttr`, or a
`cmds.sets(shell_faces, edit=True, forceElement=sg)` face assignment. -/
inductive MayaAction where
  | warning : String → MayaAction
  | createSG : String → MayaAction
  | connectAttr : String → String → MayaAction
  | assignSG : List String → String → MayaAction
deriving DecidableEq

/-- The material loop of `assign_random_materials_from_list` (lines 81-92):
returns the effects performed and the `shading_groups` list built.  A
non-existing material yields a warning and is skipped; an existing material
contributes its first connected shading engine, or a freshly created group
named `material + "SG"` connected to the material's `.outColor`. -/
def resolveShadingGroups (env : MayaEnv) : List String → List MayaAction × List String
  | [] => ([], [])
  | material :: rest =>
    if env.objExists material then
      match env.listConnections material with
      | sg :: _ =>
        let r := resolveShadingGroups env rest
        (r.1, sg :: r.2)
      | [] =>
        let sg := material ++ "SG"
        let r := resolveShadingGroups env rest
        (MayaAction.createSG sg ::
          MayaAction.connectAttr (material ++ ".outColor") (sg ++ ".surfaceShader") :: r.1,
         sg :: r.2)
    else
      let r := resolveShadingGroups env rest
      (MayaAction.warning ("Material does not exist: " ++ material) :: r.1, r.2)

/-- The assignment loop (lines 97-99): shell number `k` is assigned the
shading group `random.choice(shading_groups)`, modelled as the element at
index `rand k % length`. -/
def assignShells (rand : Nat → Nat) (sgs : List String) :
    Nat → List (List String) → List MayaAction
  | _, [] => []
  | k, shell :: rest =>
    MayaAction.assignSG shell (sgs.getD (rand k % sgs.length) "") ::
      assignShells rand sgs (k + 1) rest

/-- `assign_random_materials_from_list` (lines 67-99).  Returns the effects
performed and, when `cmds.error` fired, the error message at which the
function aborted. -/
def assign_random_materials_from_list (env : MayaEnv) (rand : Nat → Nat)
    (shells : List (List String)) (material_list : List String) :
    List MayaAction × Option String :=
  if material_list.isEmpty then ([], some "Material list is empty.")
  else
    let r := resolveShadingGroups env material_list
    if r.2.isEmpty then (r.1, some "No available shading groups for assignment.")
    else (r.1 ++ assignShells rand r.2 0 shells, none)

/-- The adjacency map of the spec's worked scenario:
`{0:[1], 1:[0,2], 2:[1], 3:[4], 4:[3], 5:[]}`. -/
def fcScenario : List (Nat × List Nat) :=
  [(0, [1]), (1, [0, 2]), (2, [1]), (3, [4]), (4, [3]), (5, [])]

/-- A two-face mesh whose faces are mutually adjacent. -/
def fcPair : List (Nat × List Nat) := [(0, [1]), (1, [0])]

/-- An adjacency map referencing id 5 with `face_count = 1`. -/
def fcOutOfRange : List (Nat × List Nat) := [(0, [5])]

/-- A concrete scene for the material-assignment witnesses: `mat1` exists and
already has a shading engine `mat1SG0`; nothing else exists. -/
def envW : MayaEnv :=
  { objExists := fun m => m == "mat1"
    listConnections := fun m => if m == "mat1" then ["mat1SG0"] else [] }

/-- `face_count == 0` (claim C6): the shell sequence is empty, for every
adjacency map. -/
theorem C6_empty_mesh (fc : List (Nat × List Nat)) :
    get_mesh_shells_core 0 fc = [] := rfl

/-- Shell detection is deterministic (claim C7): the embedding is a pure
function of `(face_count, adjacency)`, so two runs on the same input agree
in shell membership, shell order and face order within each shell. -/
theorem C7_deterministic (face_count : Nat) (fc : List (Nat × List Nat)) :
    get_mesh_shells_core face_count fc = get_mesh_shells_core face_count fc := rfl

/-- The spec's worked scenario (claim C8): `face_count = 6` with adjacency
`{0:[1], 1:[0,2], 2:[1], 3:[4], 4:[3], 5:[]}` yields exactly
`[[0,1,2],[3,4],[5]]`. -/
theorem C8_scenario :
    get_mesh_shells_core 6 fcScenario = [[0, 1, 2], [3, 4], [5]] := by decide

/-- Empty material list (claim C9): `assign_random_materials_from_list`
fails with the "Material list is empty." error having performed no action:
no shading group is created, connected, or assigned. -/
theorem C9_empty_material_list (env : MayaEnv) (rand : Nat → Nat)
    (shells : List (List String)) :
    assign_random_materials_from_list env rand shells [] =
      ([], some "Material list is empty.") := rfl

/-! ### The BFS fuel bound and the loop's step equations -/

theorem bfsAux_nil (fc : List (Nat × List Nat)) (fuel : Nat) (v : Finset Nat)
    (s : List Nat) : bfsAux fc fuel [] v s = (v, s) := by
  cases fuel <;> rfl

theorem phi_cons (fc : List (Nat × List Nat)) (c : Nat) (rest : List Nat)
    (v : Finset Nat) : phi fc (c :: rest) v = phi fc rest v + 1 := by
  simp only [phi, List.length_cons]
  omega

theorem filter_nm_cons_pos (rest : List (Nat × List Nat)) (p : Nat × List Nat)
    (v : Finset Nat) (h : p.1 ∉ v) :
    (p :: rest).filter (fun q => q.1 ∉ v) = p :: rest.filter (fun q => q.1 ∉ v) := by
  simp [List.filter_cons, h]

theorem filter_nm_cons_neg (rest : List (Nat × List Nat)) (p : Nat × List Nat)
    (v : Finset Nat) (h : p.1 ∈ v) :
    (p :: rest).filter (fun q => q.1 ∉ v) = rest.filter (fun q => q.1 ∉ v) := by
  simp [List.filter_cons, h]

theorem sumLens_mono (fc : List (Nat × List Nat)) (v w : Finset Nat) (hvw : v ⊆ w) :
    ((fc.filter (fun p => p.1 ∉ w)).map (fun p => p.2.length)).sum ≤
      ((fc.filter (fun p => p.1 ∉ v)).map (fun p => p.2.length)).sum := by
  induction fc with
  | nil => simp
  | cons p rest ih =>
    by_cases hw : p.1 ∈ w
    · rw [filter_nm_cons_neg rest p w hw]
      by_cases hv : p.1 ∈ v
      · rw [filter_nm_cons_neg rest p v hv]
        exact ih
      · rw [filter_nm_cons_pos rest p v hv]
        simp only [List.map_cons, List.sum_cons]
        exact le_trans ih (Nat.le_add_left _ _)
    · have hv : p.1 ∉ v := fun h => hw (hvw h)
      rw [filter_nm_cons_pos rest p w hw, filter_nm_cons_pos rest p v hv]
      simp only [List.map_cons, List.sum_cons]
      exact Nat.add_le_add_left ih _

theorem phi_key (fc : List (Nat × List Nat)) (c : Nat) (v : Finset Nat) (hc : c ∉ v) :
    (adjGet fc c).length +
      ((fc.filter (fun p => p.1 ∉ insert c v)).map (fun p => p.2.length)).sum ≤
      ((fc.filter (fun p => p.1 ∉ v)).map (fun p => p.2.length)).sum := by
  induction fc with
  | nil => simp [adjGet]
  | cons p rest ih =>
    by_cases hp : p.1 = c
    · have h1 : p.1 ∈ insert c v := by rw [hp]; exact Finset.mem_insert_self c v
      have h2 : p.1 ∉ v := by rw [hp]; exact hc
      rw [show adjGet (p :: rest) c = p.2 from by simp [adjGet, hp]]
      rw [filter_nm_cons_neg rest p (insert c v) h1, filter_nm_cons_pos rest p v h2]
      simp only [List.map_cons, List.sum_cons]
      have hm := sumLens_mono rest v (insert c v) (Finset.subset_insert c v)
      omega
    · rw [show adjGet (p :: rest) c = adjGet rest c from by simp [adjGet, hp]]
      by_cases hpv : p.1 ∈ v
      · have h1 : p.1 ∈ insert c v := Finset.mem_insert_of_mem hpv
        rw [filter_nm_cons_neg rest p (insert c v) h1, filter_nm_cons_neg rest p v hpv]
        exact ih
      · have h1 : p.1 ∉ insert c v := by
          intro h
          rcases Finset.mem_insert.1 h with h | h
          · exact hp h
          · exact hpv h
        rw [filter_nm_cons_pos rest p (insert c v) h1, filter_nm_cons_pos rest p v hpv]
        simp only [List.map_cons, List.sum_cons]
        omega

theorem phi_step_new (fc : List (Nat × List Nat)) (c : Nat) (rest : List Nat)
    (v : Finset Nat) (hc : c ∉ v) :
    phi fc (rest ++ (adjGet fc c).filter (fun n => n ∉ insert c v)) (insert c v) ≤
      phi fc rest v := by
  have h1 := phi_key fc c v hc
  have h2 : ((adjGet fc c).filter (fun n => n ∉ insert c v)).length ≤
      (adjGet fc c).length := List.length_filter_le _ _
  simp only [phi, List.length_append]
  omega

theorem bfsAux_fuel_succ (fc : List (Nat × List Nat)) :
    ∀ fuel q v s, phi fc q v ≤ fuel →
      bfsAux fc (fuel + 1) q v s = bfsAux fc fuel q v s := by
  intro fuel
  induction fuel with
  | zero =>
    intro q v s h
    cases q with
    | nil => rw [bfsAux_nil, bfsAux_nil]
    | cons c rest => rw [phi_cons] at h; omega
  | succ n ih =>
    intro q v s h
    cases q with
    | nil => rw [bfsAux_nil, bfsAux_nil]
    | cons c rest =>
      rw [phi_cons] at h
      by_cases hc : c ∈ v
      · simp only [bfsAux, if_pos hc]
        exact ih rest v s (by omega)
      · simp only [bfsAux, if_neg hc]
        exact ih _ _ _ (le_trans (phi_step_new fc c rest v hc) (by omega))

theorem bfsAux_eq_bfsRun (fc : List (Nat × List Nat)) (q : List Nat) (v : Finset Nat)
    (s : List Nat) : ∀ fuel, phi fc q v ≤ fuel →
      bfsAux fc fuel q v s = bfsRun fc q v s := by
  intro fuel h
  induction fuel, h using Nat.le_induction with
  | base => rfl
  | succ n hn ih => rw [bfsAux_fuel_succ fc n q v s hn, ih]

theorem bfsRun_nil (fc : List (Nat × List Nat)) (v : Finset Nat) (s : List Nat) :
    bfsRun fc [] v s = (v, s) :=
  bfsAux_nil fc _ v s

theorem bfsRun_cons (fc : List (Nat × List Nat)) (c : Nat) (rest : List Nat)
    (v : Finset Nat) (s : List Nat) :
    bfsRun fc (c :: rest) v s =
      if c ∈ v then bfsRun fc rest v s
      else bfsRun fc (rest ++ (adjGet fc c).filter (fun n => n ∉ insert c v))
        (insert c v) (s ++ [c]) := by
  show bfsAux fc (phi fc (c :: rest) v) (c :: rest) v s = _
  rw [phi_cons]
  by_cases hc : c ∈ v
  · rw [if_pos hc]
    simp only [bfsAux, if_pos hc]
    rfl
  · rw [if_neg hc]
    simp only [bfsAux, if_neg hc]
    exact bfsAux_eq_bfsRun fc _ _ _ _ (phi_step_new fc c rest v hc)

/-! ### BFS invariants -/

theorem bfsAux_visited_subset (fc : List (Nat × List Nat)) :
    ∀ fuel q v s, v ⊆ (bfsAux fc fuel q v s).1 := by
  intro fuel
  induction fuel with
  | zero => intro q v s; exact Finset.Subset.refl v
  | succ n ih =>
    intro q v s
    cases q with
    | nil => exact Finset.Subset.refl v
    | cons c rest =>
      by_cases hc : c ∈ v
      · simp only [bfsAux, if_pos hc]
        exact ih rest v s
      · simp only [bfsAux, if_neg hc]
        exact Finset.Subset.trans (Finset.subset_insert c v) (ih _ _ _)

theorem bfsAux_structure (fc : List (Nat × List Nat)) :
    ∀ fuel q v s, ∃ t, bfsAux fc fuel q v s = (v ∪ t.toFinset, s ++ t) ∧
      t.Nodup ∧ ∀ x ∈ t, x ∉ v := by
  intro fuel
  induction fuel with
  | zero =>
    intro q v s
    exact ⟨[], by simp [bfsAux], List.nodup_nil, by simp⟩
  | succ n ih =>
    intro q v s
    cases q with
    | nil => exact ⟨[], by simp [bfsAux_nil], List.nodup_nil, by simp⟩
    | cons c rest =>
      by_cases hc : c ∈ v
      · obtain ⟨t, ht, hnd, hnv⟩ := ih rest v s
        refine ⟨t, ?_, hnd, hnv⟩
        simp only [bfsAux, if_pos hc]
        exact ht
      · obtain ⟨t, ht, hnd, hnv⟩ :=
          ih (rest ++ (adjGet fc c).filter (fun n => n ∉ insert c v)) (insert c v) (s ++ [c])
        refine ⟨c :: t, ?_, ?_, ?_⟩
        · simp only [bfsAux, if_neg hc]
          rw [ht]
          simp [List.toFinset_cons, Finset.insert_union, Finset.union_insert]
        · exact List.nodup_cons.2 ⟨fun h => hnv c h (Finset.mem_insert_self c v), hnd⟩
        · intro x hx
          rcases List.mem_cons.1 hx with h | h
          · rw [h]; exact hc
          · exact fun hxv => hnv x h (Finset.mem_insert_of_mem hxv)

theorem bfsAux_queue_subset (fc : List (Nat × List Nat)) :
    ∀ fuel q v s, phi fc q v ≤ fuel → ∀ x ∈ q, x ∈ (bfsAux fc fuel q v s).1 := by
  intro fuel
  induction fuel with
  | zero =>
    intro q v s h x hx
    cases q with
    | nil => cases hx
    | cons c rest => rw [phi_cons] at h; omega
  | succ n ih =>
    intro q v s h x hx
    cases q with
    | nil => cases hx
    | cons c rest =>
      rw [phi_cons] at h
      by_cases hc : c ∈ v
      · simp only [bfsAux, if_pos hc]
        rcases List.mem_cons.1 hx with rfl | hx'
        · exact bfsAux_visited_subset fc n rest v s hc
        · exact ih rest v s (by omega) x hx'
      · simp only [bfsAux, if_neg hc]
        rcases List.mem_cons.1 hx with rfl | hx'
        · exact bfsAux_visited_subset fc n _ _ _ (Finset.mem_insert_self x v)
        · exact ih _ _ _ (le_trans (phi_step_new fc c rest v hc) (by omega)) x
            (List.mem_append_left _ hx')

theorem bfsAux_bound (fc : List (Nat × List Nat)) (P : Nat → Prop)
    (hAdj : ∀ a n, n ∈ adjGet fc a → P n) :
    ∀ fuel q v s, (∀ a ∈ q, P a) → ∀ x ∈ (bfsAux fc fuel q v s).1, x ∈ v ∨ P x := by
  intro fuel
  induction fuel with
  | zero => intro q v s _ x hx; exact Or.inl hx
  | succ n ih =>
    intro q v s hq x hx
    cases q with
    | nil =>
      rw [bfsAux_nil] at hx
      exact Or.inl hx
    | cons c rest =>
      by_cases hc : c ∈ v
      · simp only [bfsAux, if_pos hc] at hx
        exact ih rest v s (fun a ha => hq a (List.mem_cons_of_mem c ha)) x hx
      · simp only [bfsAux, if_neg hc] at hx
        have hq' : ∀ a ∈ rest ++ (adjGet fc c).filter (fun k => k ∉ insert c v), P a := by
          intro a ha
          rcases List.mem_append.1 ha with ha' | ha'
          · exact hq a (List.mem_cons_of_mem c ha')
          · exact hAdj c a (List.mem_of_mem_filter ha')
        rcases ih _ _ _ hq' x hx with hx' | hx'
        · rcases Finset.mem_insert.1 hx' with rfl | hx''
          · exact Or.inr (hq x (List.mem_cons_self x rest))
          · exact Or.inl hx''
        · exact Or.inr hx'

theorem bfsAux_closed (fc : List (Nat × List Nat)) :
    ∀ fuel q v s, phi fc q v ≤ fuel → ∀ x, x ∈ (bfsAux fc fuel q v s).1 → x ∉ v →
      ∀ n ∈ adjGet fc x, n ∈ (bfsAux fc fuel q v s).1 := by
  intro fuel
  induction fuel with
  | zero =>
    intro q v s h x hx hxv n hn
    cases q with
    | nil => exact absurd hx hxv
    | cons c rest => rw [phi_cons] at h; omega
  | succ m ih =>
    intro q v s h x hx hxv n hn
    cases q with
    | nil =>
      rw [bfsAux_nil] at hx ⊢
      exact absurd hx hxv
    | cons c rest =>
      rw [phi_cons] at h
      by_cases hc : c ∈ v
      · simp only [bfsAux, if_pos hc] at hx ⊢
        exact ih rest v s (by omega) x hx hxv n hn
      · simp only [bfsAux, if_neg hc] at hx ⊢
        have hphi : phi fc (rest ++ (adjGet fc c).filter (fun k => k ∉ insert c v))
            (insert c v) ≤ m :=
          le_trans (phi_step_new fc c rest v hc) (by omega)
        by_cases hxc : x = c
        · subst hxc
          by_cases hnv : n ∈ insert x v
          · exact bfsAux_visited_subset fc m _ _ _ hnv
          · refine bfsAux_queue_subset fc m _ _ _ hphi n ?_
            exact List.mem_append_right _ (List.mem_filter.2 ⟨hn, decide_eq_true hnv⟩)
        · have hxv' : x ∉ insert c v := by
            intro hmem
            rcases Finset.mem_insert.1 hmem with h' | h'
            · exact hxc h'
            · exact hxv h'
          exact ih _ _ _ hphi x hx hxv' n hn

theorem bfsAux_sound (fc : List (Nat × List Nat)) :
    ∀ fuel q v s x, x ∈ (bfsAux fc fuel q v s).1 → x ∈ v ∨ ∃ a ∈ q, Reach fc a x := by
  intro fuel
  induction fuel with
  | zero => intro q v s x hx; exact Or.inl hx
  | succ m ih =>
    intro q v s x hx
    cases q with
    | nil =>
      rw [bfsAux_nil] at hx
      exact Or.inl hx
    | cons c rest =>
      by_cases hc : c ∈ v
      · simp only [bfsAux, if_pos hc] at hx
        rcases ih rest v s x hx with h | ⟨a, ha, hr⟩
        · exact Or.inl h
        · exact Or.inr ⟨a, List.mem_cons_of_mem c ha, hr⟩
      · simp only [bfsAux, if_neg hc] at hx
        rcases ih _ _ _ x hx with h | ⟨a, ha, hr⟩
        · rcases Finset.mem_insert.1 h with rfl | h'
          · exact Or.inr ⟨x, List.mem_cons_self x rest, Relation.ReflTransGen.refl⟩
          · exact Or.inl h'
        · rcases List.mem_append.1 ha with ha' | ha'
          · exact Or.inr ⟨a, List.mem_cons_of_mem c ha', hr⟩
          · have hstep : adjStep fc c a := List.mem_of_mem_filter ha'
            exact Or.inr ⟨c, List.mem_cons_self c rest, Relation.ReflTransGen.head hstep hr⟩

theorem bfsRun_structure (fc : List (Nat × List Nat)) (q : List Nat) (v : Finset Nat)
    (s : List Nat) : ∃ t, bfsRun fc q v s = (v ∪ t.toFinset, s ++ t) ∧
      t.Nodup ∧ ∀ x ∈ t, x ∉ v :=
  bfsAux_structure fc (phi fc q v) q v s

theorem bfsRun_visited_subset (fc : List (Nat × List Nat)) (q : List Nat)
    (v : Finset Nat) (s : List Nat) : v ⊆ (bfsRun fc q v s).1 :=
  bfsAux_visited_subset fc (phi fc q v) q v s

theorem bfsRun_queue_subset (fc : List (Nat × List Nat)) (q : List Nat)
    (v : Finset Nat) (s : List Nat) : ∀ x ∈ q, x ∈ (bfsRun fc q v s).1 :=
  bfsAux_queue_subset fc (phi fc q v) q v s (le_refl _)

theorem bfsRun_bound (fc : List (Nat × List Nat)) (P : Nat → Prop)
    (hAdj : ∀ a n, n ∈ adjGet fc a → P n) (q : List Nat) (v : Finset Nat)
    (s : List Nat) (hq : ∀ a ∈ q, P a) : ∀ x ∈ (bfsRun fc q v s).1, x ∈ v ∨ P x :=
  bfsAux_bound fc P hAdj (phi fc q v) q v s hq

theorem bfsRun_closed (fc : List (Nat × List Nat)) (q : List Nat) (v : Finset Nat)
    (s : List Nat) : ∀ x, x ∈ (bfsRun fc q v s).1 → x ∉ v →
      ∀ n ∈ adjGet fc x, n ∈ (bfsRun fc q v s).1 :=
  bfsAux_closed fc (phi fc q v) q v s (le_refl _)

theorem bfsRun_sound (fc : List (Nat × List Nat)) (q : List Nat) (v : Finset Nat)
    (s : List Nat) : ∀ x ∈ (bfsRun fc q v s).1, x ∈ v ∨ ∃ a ∈ q, Reach fc a x :=
  fun x => bfsAux_sound fc (phi fc q v) q v s x

/-! ### The outer loop over face ids -/

theorem shellsFrom_cons_mem (fc : List (Nat × List Nat)) (i : Nat) (rest : List Nat)
    (v : Finset Nat) (h : i ∈ v) :
    shellsFrom fc (i :: rest) v = shellsFrom fc rest v := by
  simp [shellsFrom, h]

theorem shellsFrom_cons_new (fc : List (Nat × List Nat)) (i : Nat) (rest : List Nat)
    (v : Finset Nat) (h : i ∉ v) :
    shellsFrom fc (i :: rest) v =
      (bfsRun fc [i] v []).2 :: shellsFrom fc rest (bfsRun fc [i] v []).1 := by
  simp [shellsFrom, h]

theorem adjGet_mem_exists (fc : List (Nat × List Nat)) (a n : Nat)
    (h : n ∈ adjGet fc a) : ∃ p ∈ fc, p.1 = a ∧ n ∈ p.2 := by
  induction fc with
  | nil => simp [adjGet] at h
  | cons p rest ih =>
    by_cases hp : p.1 = a
    · rw [show adjGet (p :: rest) a = p.2 from by simp [adjGet, hp]] at h
      exact ⟨p, List.mem_cons_self p rest, hp, h⟩
    · rw [show adjGet (p :: rest) a = adjGet rest a from by simp [adjGet, hp]] at h
      obtain ⟨p', hp', h1, h2⟩ := ih h
      exact ⟨p', List.mem_cons_of_mem p hp', h1, h2⟩

theorem adjGet_eq_nil_of_keys (fc : List (Nat × List Nat)) (x : Nat)
    (h : ∀ p ∈ fc, p.1 ≠ x) : adjGet fc x = [] := by
  induction fc with
  | nil => rfl
  | cons p rest ih =>
    rw [show adjGet (p :: rest) x = adjGet rest x from
      by simp [adjGet, h p (List.mem_cons_self p rest)]]
    exact ih (fun q hq => h q (List.mem_cons_of_mem p hq))

theorem shellsFrom_nodup (fc : List (Nat × List Nat)) :
    ∀ idxs v, ((shellsFrom fc idxs v).flatten.Nodup) ∧
      ∀ x ∈ (shellsFrom fc idxs v).flatten, x ∉ v := by
  intro idxs
  induction idxs with
  | nil =>
    intro v
    exact ⟨List.nodup_nil, by simp [shellsFrom]⟩
  | cons i rest ih =>
    intro v
    by_cases hi : i ∈ v
    · rw [shellsFrom_cons_mem fc i rest v hi]
      exact ih v
    · rw [shellsFrom_cons_new fc i rest v hi]
      obtain ⟨t, ht, hnd, hnv⟩ := bfsRun_structure fc [i] v []
      have h1 : (bfsRun fc [i] v []).1 = v ∪ t.toFinset := by simp [ht]
      have h2 : (bfsRun fc [i] v []).2 = t := by simp [ht]
      obtain ⟨ihn, ihm⟩ := ih (bfsRun fc [i] v []).1
      constructor
      · rw [List.flatten_cons, h2, List.nodup_append]
        refine ⟨hnd, ihn, ?_⟩
        intro a ha hb
        have : a ∉ (bfsRun fc [i] v []).1 := ihm a hb
        rw [h1] at this
        exact this (Finset.mem_union_right v (List.mem_toFinset.2 ha))
      · intro x hx
        rw [List.flatten_cons] at hx
        rcases List.mem_append.1 hx with hx' | hx'
        · rw [h2] at hx'
          exact hnv x hx'
        · intro hxv
          have : x ∉ (bfsRun fc [i] v []).1 := ihm x hx'
          rw [h1] at this
          exact this (Finset.mem_union_left _ hxv)

theorem shellsFrom_cover (fc : List (Nat × List Nat)) :
    ∀ idxs v i, i ∈ idxs → i ∈ v ∨ i ∈ (shellsFrom fc idxs v).flatten := by
  intro idxs
  induction idxs with
  | nil => intro v i h; cases h
  | cons j rest ih =>
    intro v i hi
    by_cases hj : j ∈ v
    · rw [shellsFrom_cons_mem fc j rest v hj]
      rcases List.mem_cons.1 hi with rfl | hi'
      · exact Or.inl hj
      · exact ih v i hi'
    · rw [shellsFrom_cons_new fc j rest v hj]
      obtain ⟨t, ht, hnd, hnv⟩ := bfsRun_structure fc [j] v []
      have h1 : (bfsRun fc [j] v []).1 = v ∪ t.toFinset := by simp [ht]
      have h2 : (bfsRun fc [j] v []).2 = t := by simp [ht]
      rcases List.mem_cons.1 hi with rfl | hi'
      · have hj1 : i ∈ (bfsRun fc [i] v []).1 :=
          bfsRun_queue_subset fc [i] v [] i (List.mem_cons_self i [])
        rw [h1] at hj1
        rcases Finset.mem_union.1 hj1 with h | h
        · exact Or.inl h
        · refine Or.inr (List.mem_flatten.2 ⟨t, ?_, List.mem_toFinset.1 h⟩)
          rw [← h2]
          exact List.mem_cons_self _ _
      · rcases ih (bfsRun fc [j] v []).1 i hi' with h | h
        · rw [h1] at h
          rcases Finset.mem_union.1 h with h' | h'
          · exact Or.inl h'
          · refine Or.inr (List.mem_flatten.2 ⟨t, ?_, List.mem_toFinset.1 h'⟩)
            rw [← h2]
            exact List.mem_cons_self _ _
        · obtain ⟨l, hl, hil⟩ := List.mem_flatten.1 h
          exact Or.inr (List.mem_flatten.2 ⟨l, List.mem_cons_of_mem _ hl, hil⟩)

theorem shellsFrom_bound (fc : List (Nat × List Nat)) (P : Nat → Prop)
    (hAdj : ∀ a n, n ∈ adjGet fc a → P n) :
    ∀ idxs v, (∀ a ∈ idxs, P a) → ∀ x ∈ (shellsFrom fc idxs v).flatten, x ∈ v ∨ P x := by
  intro idxs
  induction idxs with
  | nil => intro v _ x hx; simp [shellsFrom] at hx
  | cons j rest ih =>
    intro v hidx x hx
    by_cases hj : j ∈ v
    · rw [shellsFrom_cons_mem fc j rest v hj] at hx
      exact ih v (fun a ha => hidx a (List.mem_cons_of_mem j ha)) x hx
    · rw [shellsFrom_cons_new fc j rest v hj] at hx
      obtain ⟨t, ht, hnd, hnv⟩ := bfsRun_structure fc [j] v []
      have h1 : (bfsRun fc [j] v []).1 = v ∪ t.toFinset := by simp [ht]
      have h2 : (bfsRun fc [j] v []).2 = t := by simp [ht]
      have hqP : ∀ a ∈ [j], P a := by
        intro a ha
        rcases List.mem_cons.1 ha with rfl | h'
        · exact hidx a (List.mem_cons_self a rest)
        · cases h'
      rw [List.flatten_cons] at hx
      rcases List.mem_append.1 hx with hx' | hx'
      · rw [h2] at hx'
        have hxr : x ∈ (bfsRun fc [j] v []).1 := by
          rw [h1]
          exact Finset.mem_union_right v (List.mem_toFinset.2 hx')
        exact bfsRun_bound fc P hAdj [j] v [] hqP x hxr
      · rcases ih (bfsRun fc [j] v []).1 (fun a ha => hidx a (List.mem_cons_of_mem j ha)) x hx'
          with h | h
        · rw [h1] at h
          rcases Finset.mem_union.1 h with h' | h'
          · exact Or.inl h'
          · have hxr : x ∈ (bfsRun fc [j] v []).1 := by
              rw [h1]
              exact Finset.mem_union_right v h'
            exact bfsRun_bound fc P hAdj [j] v [] hqP x hxr
        · exact Or.inr h

/-- Partition (claim C1): when every id referenced by the adjacency map lies
in `[0, face_count)`, each face id in that range appears exactly once in the
concatenation of the returned shells, and no other id appears at all. -/
theorem C1_partition (face_count : Nat) (fc : List (Nat × List Nat))
    (Hrange : ∀ p ∈ fc, p.1 < face_count ∧ ∀ x ∈ p.2, x < face_count) :
    ∀ i : Nat, (get_mesh_shells_core face_count fc).flatten.count i =
      if i < face_count then 1 else 0 := by
  intro i
  have hnodup := (shellsFrom_nodup fc (List.range face_count) ∅).1
  by_cases hi : i < face_count
  · rw [if_pos hi]
    have hmem : i ∈ (get_mesh_shells_core face_count fc).flatten := by
      rcases shellsFrom_cover fc (List.range face_count) ∅ i (List.mem_range.2 hi) with h | h
      · exact absurd h (Finset.not_mem_empty i)
      · exact h
    exact List.count_eq_one_of_mem hnodup hmem
  · rw [if_neg hi]
    refine List.count_eq_zero_of_not_mem ?_
    intro hmem
    have hP : ∀ a n, n ∈ adjGet fc a → n < face_count := by
      intro a n hn
      obtain ⟨p, hp, _, hn2⟩ := adjGet_mem_exists fc a n hn
      exact (Hrange p hp).2 n hn2
    rcases shellsFrom_bound fc (· < face_count) hP (List.range face_count) ∅
        (fun a ha => List.mem_range.1 ha) i hmem with h | h
    · exact Finset.not_mem_empty i h
    · exact hi h

theorem C1_partition_witness :
    (get_mesh_shells_core 2 fcPair).flatten.count 1 = if 1 < 2 then 1 else 0 :=
  C1_partition 2 fcPair (by decide) 1

/-! ### Isolated faces (claim C5) -/

theorem bfsRun_isolated (fc : List (Nat × List Nat)) (i : Nat) (v : Finset Nat)
    (hi : i ∉ v) (hadj : adjGet fc i = []) :
    bfsRun fc [i] v [] = (insert i v, [i]) := by
  rw [bfsRun_cons, if_neg hi, hadj]
  simp only [List.filter_nil, List.append_nil, List.nil_append]
  exact bfsRun_nil fc (insert i v) [i]

theorem shellsFrom_isolated (fc : List (Nat × List Nat)) (i : Nat)
    (hadj : adjGet fc i = []) (href : ∀ p ∈ fc, i ∉ p.2) :
    ∀ idxs v, i ∈ idxs → i ∉ v → [i] ∈ shellsFrom fc idxs v := by
  intro idxs
  induction idxs with
  | nil => intro v h; cases h
  | cons j rest ih =>
    intro v hj hiv
    by_cases hjv : j ∈ v
    · rw [shellsFrom_cons_mem fc j rest v hjv]
      rcases List.mem_cons.1 hj with rfl | hj'
      · exact absurd hjv hiv
      · exact ih v hj' hiv
    · rw [shellsFrom_cons_new fc j rest v hjv]
      by_cases hij : i = j
      · subst hij
        rw [bfsRun_isolated fc i v hjv hadj]
        exact List.mem_cons_self _ _
      · rcases List.mem_cons.1 hj with h' | hj'
        · exact absurd h' hij
        · have hnotin : i ∉ (bfsRun fc [j] v []).1 := by
            intro hmem
            have hAdjP : ∀ a n, n ∈ adjGet fc a → (n = j ∨ ∃ p ∈ fc, n ∈ p.2) := by
              intro a n hn
              obtain ⟨p, hp, _, hn2⟩ := adjGet_mem_exists fc a n hn
              exact Or.inr ⟨p, hp, hn2⟩
            have hqP : ∀ a ∈ [j], a = j ∨ ∃ p ∈ fc, a ∈ p.2 := by
              intro a ha
              rcases List.mem_cons.1 ha with rfl | h'
              · exact Or.inl rfl
              · cases h'
            rcases bfsRun_bound fc (fun x => x = j ∨ ∃ p ∈ fc, x ∈ p.2) hAdjP [j] v []
                hqP i hmem with h | h
            · exact hiv h
            · rcases h with h | ⟨p, hp, hip⟩
              · exact hij h
              · exact href p hp hip
          exact List.mem_cons_of_mem _ (ih (bfsRun fc [j] v []).1 hj' hnotin)

/-- Isolated faces (claim C5): a face id in range with an empty (or missing)
adjacency list that no adjacency list references forms its own singleton
shell. -/
theorem C5_isolated_singleton (face_count : Nat) (fc : List (Nat × List Nat))
    (i : Nat) (h1 : i < face_count) (h2 : adjGet fc i = [])
    (h3 : ∀ p ∈ fc, i ∉ p.2) :
    [i] ∈ get_mesh_shells_core face_count fc :=
  shellsFrom_isolated fc i h2 h3 (List.range face_count) ∅
    (List.mem_range.2 h1) (Finset.not_mem_empty i)

theorem C5_isolated_singleton_witness : [2] ∈ get_mesh_shells_core 3 fcPair :=
  C5_isolated_singleton 3 fcPair 2 (by decide) (by decide) (by decide)

/-! ### Shell discovery order (claim C3) -/

theorem shellsFrom_heads (fc : List (Nat × List Nat)) :
    ∀ idxs v, idxs.Pairwise (· < ·) →
    (∀ j ∈ idxs, ∀ x, x < j → x ∈ v ∨ x ∈ idxs) →
    (∀ s ∈ shellsFrom fc idxs v,
        s.headD 0 ∈ idxs ∧ s.headD 0 ∈ s ∧ ∀ x ∈ s, s.headD 0 ≤ x)
      ∧ (shellsFrom fc idxs v).Pairwise (fun s t => s.headD 0 < t.headD 0) := by
  intro idxs
  induction idxs with
  | nil =>
    intro v _ _
    exact ⟨fun s hs => absurd hs (List.not_mem_nil s), List.Pairwise.nil⟩
  | cons j rest ih =>
    intro v hsort hlow
    have hsort' : rest.Pairwise (· < ·) := hsort.of_cons
    by_cases hjv : j ∈ v
    · rw [shellsFrom_cons_mem fc j rest v hjv]
      have hlow' : ∀ k ∈ rest, ∀ x, x < k → x ∈ v ∨ x ∈ rest := by
        intro k hk x hx
        rcases hlow k (List.mem_cons_of_mem j hk) x hx with h | h
        · exact Or.inl h
        · rcases List.mem_cons.1 h with rfl | h'
          · exact Or.inl hjv
          · exact Or.inr h'
      obtain ⟨ha, hb⟩ := ih v hsort' hlow'
      refine ⟨fun s hs => ?_, hb⟩
      obtain ⟨u1, u2, u3⟩ := ha s hs
      exact ⟨List.mem_cons_of_mem j u1, u2, u3⟩
    · rw [shellsFrom_cons_new fc j rest v hjv]
      obtain ⟨t, ht, hnd, hnv⟩ := bfsRun_structure fc [j] v []
      have h1 : (bfsRun fc [j] v []).1 = v ∪ t.toFinset := by simp [ht]
      have h2 : (bfsRun fc [j] v []).2 = t := by simp [ht]
      have htail : ∃ t', t = j :: t' := by
        have hstep := bfsRun_cons fc j [] v []
        rw [if_neg hjv] at hstep
        obtain ⟨t2, ht2, _, _⟩ := bfsRun_structure fc
          ([] ++ (adjGet fc j).filter (fun n => n ∉ insert j v)) (insert j v) ([] ++ [j])
        have hcomb := (ht.symm.trans hstep).trans ht2
        have := congrArg Prod.snd hcomb
        simp only at this
        exact ⟨t2, by simpa using this⟩
      obtain ⟨t', htail⟩ := htail
      have hmem_ge : ∀ x ∈ t, j ≤ x := by
        intro x hx
        by_contra hlt
        push_neg at hlt
        rcases hlow j (List.mem_cons_self j rest) x hlt with h | h
        · exact hnv x hx h
        · rcases List.mem_cons.1 h with rfl | h'
          · exact lt_irrefl x hlt
          · exact absurd hlt (not_lt.2 (le_of_lt (List.rel_of_pairwise_cons hsort h')))
      have hhead : t.headD 0 = j := by rw [htail]; rfl
      have hlow' : ∀ k ∈ rest, ∀ x, x < k → x ∈ (bfsRun fc [j] v []).1 ∨ x ∈ rest := by
        intro k hk x hx
        rcases hlow k (List.mem_cons_of_mem j hk) x hx with h | h
        · exact Or.inl (bfsRun_visited_subset fc [j] v [] h)
        · rcases List.mem_cons.1 h with rfl | h'
          · exact Or.inl (bfsRun_queue_subset fc [x] v [] x (List.mem_cons_self x []))
          · exact Or.inr h'
      obtain ⟨ha, hb⟩ := ih (bfsRun fc [j] v []).1 hsort' hlow'
      constructor
      · intro s hs
        rcases List.mem_cons.1 hs with rfl | hs'
        · rw [h2, hhead]
          refine ⟨List.mem_cons_self j rest, ?_, ?_⟩
          · rw [htail]
            exact List.mem_cons_self j t'
          · exact hmem_ge
        · obtain ⟨u1, u2, u3⟩ := ha s hs'
          exact ⟨List.mem_cons_of_mem j u1, u2, u3⟩
      · refine List.Pairwise.cons ?_ hb
        intro s hs
        obtain ⟨u1, _, _⟩ := ha s hs
        rw [h2, hhead]
        exact List.rel_of_pairwise_cons hsort u1

/-- Shell discovery order (claim C3): every returned shell is nonempty, its
first element (the BFS seed) is a member and is its minimum face id, and the
shells are ordered strictly increasingly by that minimum: each new shell is
started at the lowest-numbered face id not yet visited. -/
theorem C3_shell_order (face_count : Nat) (fc : List (Nat × List Nat)) :
    (∀ s ∈ get_mesh_shells_core face_count fc,
        s.headD 0 ∈ s ∧ ∀ x ∈ s, s.headD 0 ≤ x)
      ∧ (get_mesh_shells_core face_count fc).Pairwise
          (fun s t => s.headD 0 < t.headD 0) := by
  have hsort : (List.range face_count).Pairwise (· < ·) :=
    List.pairwise_lt_range face_count
  have hlow : ∀ j ∈ List.range face_count, ∀ x, x < j →
      x ∈ (∅ : Finset Nat) ∨ x ∈ List.range face_count := by
    intro j hj x hx
    exact Or.inr (List.mem_range.2 (lt_trans hx (List.mem_range.1 hj)))
  obtain ⟨ha, hb⟩ := shellsFrom_heads fc (List.range face_count) ∅ hsort hlow
  exact ⟨fun s hs => ⟨(ha s hs).2.1, (ha s hs).2.2⟩, hb⟩

theorem C3_shell_order_witness :
    (get_mesh_shells_core 6 fcScenario).Pairwise
      (fun s t => s.headD 0 < t.headD 0) :=
  (C3_shell_order 6 fcScenario).2

/-! ### Connectivity (claim C2) -/

theorem reach_mem_closed (fc : List (Nat × List Nat)) (v : Finset Nat)
    (hInv : ∀ x ∈ v, ∀ n ∈ adjGet fc x, n ∈ v) (x y : Nat) (hx : x ∈ v)
    (h : Reach fc x y) : y ∈ v := by
  induction h with
  | refl => exact hx
  | tail h1 h2 ih => exact hInv _ ih _ h2

theorem bfsRun_component (fc : List (Nat × List Nat)) (v : Finset Nat) (i : Nat)
    (hInv : ∀ x ∈ v, ∀ n ∈ adjGet fc x, n ∈ v) (hi : i ∉ v)
    (Hsym : ∀ x y, y ∈ adjGet fc x → x ∈ adjGet fc y) :
    (∀ x, x ∈ (bfsRun fc [i] v []).2 ↔ Reach fc i x)
    ∧ (∀ x ∈ (bfsRun fc [i] v []).1, ∀ n ∈ adjGet fc x, n ∈ (bfsRun fc [i] v []).1) := by
  obtain ⟨t, ht, hnd, hnv⟩ := bfsRun_structure fc [i] v []
  have h1 : (bfsRun fc [i] v []).1 = v ∪ t.toFinset := by simp [ht]
  have h2 : (bfsRun fc [i] v []).2 = t := by simp [ht]
  have hclosed : ∀ x ∈ (bfsRun fc [i] v []).1, ∀ n ∈ adjGet fc x,
      n ∈ (bfsRun fc [i] v []).1 := by
    intro x hx n hn
    by_cases hxv : x ∈ v
    · exact bfsRun_visited_subset fc [i] v [] (hInv x hxv n hn)
    · exact bfsRun_closed fc [i] v [] x hx hxv n hn
  refine ⟨?_, hclosed⟩
  intro x
  constructor
  · intro hx
    rw [h2] at hx
    have hxr : x ∈ (bfsRun fc [i] v []).1 := by
      rw [h1]
      exact Finset.mem_union_right v (List.mem_toFinset.2 hx)
    rcases bfsRun_sound fc [i] v [] x hxr with h | ⟨a, ha, hr⟩
    · exact absurd h (hnv x hx)
    · rcases List.mem_cons.1 ha with rfl | h'
      · exact hr
      · cases h'
  · intro hr
    have hin : x ∈ (bfsRun fc [i] v []).1 := by
      induction hr with
      | refl => exact bfsRun_queue_subset fc [i] v [] i (List.mem_cons_self i [])
      | tail hab hstep ih => exact hclosed _ ih _ hstep
    have hxv : x ∉ v := by
      intro hxv
      have hrev : Reach fc x i :=
        Relation.ReflTransGen.symmetric (fun a b h => Hsym a b h) hr
      exact hi (reach_mem_closed fc v hInv x i hxv hrev)
    rw [h2]
    rw [h1] at hin
    rcases Finset.mem_union.1 hin with h | h
    · exact absurd h hxv
    · exact List.mem_toFinset.1 h

theorem shellsFrom_component (fc : List (Nat × List Nat))
    (Hsym : ∀ x y, y ∈ adjGet fc x → x ∈ adjGet fc y) :
    ∀ idxs v, (∀ x ∈ v, ∀ n ∈ adjGet fc x, n ∈ v) →
      ∀ t ∈ shellsFrom fc idxs v, ∃ sd, ∀ x, x ∈ t ↔ Reach fc sd x := by
  intro idxs
  induction idxs with
  | nil => intro v _ t ht; cases ht
  | cons j rest ih =>
    intro v hInv t ht
    by_cases hjv : j ∈ v
    · rw [shellsFrom_cons_mem fc j rest v hjv] at ht
      exact ih v hInv t ht
    · rw [shellsFrom_cons_new fc j rest v hjv] at ht
      obtain ⟨hiff, hclosed⟩ := bfsRun_component fc v j hInv hjv Hsym
      rcases List.mem_cons.1 ht with rfl | ht'
      · exact ⟨j, hiff⟩
      · exact ih (bfsRun fc [j] v []).1 hclosed t ht'

/-- Connectivity (claim C2): under a symmetric adjacency map whose referenced
ids lie in `[0, face_count)`, two face ids in range lie in a common shell iff
a path of adjacency edges connects them. -/
theorem C2_connectivity (face_count : Nat) (fc : List (Nat × List Nat))
    (a b : Nat)
    (Hrange : ∀ p ∈ fc, p.1 < face_count ∧ ∀ x ∈ p.2, x < face_count)
    (Hsym : ∀ x y, y ∈ adjGet fc x → x ∈ adjGet fc y)
    (ha : a < face_count) (hb : b < face_count) :
    (∃ t ∈ get_mesh_shells_core face_count fc, a ∈ t ∧ b ∈ t) ↔ Reach fc a b := by
  have hcomp := shellsFrom_component fc Hsym (List.range face_count) ∅
    (fun x hx => absurd hx (Finset.not_mem_empty x))
  constructor
  · rintro ⟨t, ht, hat, hbt⟩
    obtain ⟨sd, hiff⟩ := hcomp t ht
    have h1 : Reach fc sd a := (hiff a).1 hat
    have h2 : Reach fc sd b := (hiff b).1 hbt
    exact Relation.ReflTransGen.trans
      (Relation.ReflTransGen.symmetric (fun u w h => Hsym u w h) h1) h2
  · intro hr
    rcases shellsFrom_cover fc (List.range face_count) ∅ a (List.mem_range.2 ha)
        with h | h
    · exact absurd h (Finset.not_mem_empty a)
    · obtain ⟨t, ht, hat⟩ := List.mem_flatten.1 h
      obtain ⟨sd, hiff⟩ := hcomp t ht
      have h1 : Reach fc sd a := (hiff a).1 hat
      exact ⟨t, ht, hat, (hiff b).2 (Relation.ReflTransGen.trans h1 hr)⟩

theorem C2_connectivity_witness :
    ∃ t ∈ get_mesh_shells_core 2 fcPair, 0 ∈ t ∧ 1 ∈ t := by
  have Hsym : ∀ x y, y ∈ adjGet fcPair x → x ∈ adjGet fcPair y := by
    intro x y h
    by_cases hx : x < 2
    · interval_cases x
      · rw [show adjGet fcPair 0 = [1] from rfl] at h
        rw [List.mem_singleton.1 h]
        decide
      · rw [show adjGet fcPair 1 = [0] from rfl] at h
        rw [List.mem_singleton.1 h]
        decide
    · rw [adjGet_eq_nil_of_keys fcPair x ?_] at h
      · cases h
      · intro p hp
        have hcases : p = (0, [1]) ∨ p = (1, [0]) := by simpa [fcPair] using hp
        rcases hcases with rfl | rfl
        · show (0 : Nat) ≠ x
          omega
        · show (1 : Nat) ≠ x
          omega
  exact (C2_connectivity 2 fcPair 0 1 (by decide) Hsym (by decide) (by decide)).2
    (Relation.ReflTransGen.single (show (1 : Nat) ∈ adjGet fcPair 0 by decide))

/-! ### Out-of-range adjacency ids (claim C4) -/

/-- Counterexample to claim C4: with `face_count = 1` and adjacency
`{0: [5]}`, the BFS core does not fail: it returns the shell sequence
`[[0, 5]]`, whose membership includes the out-of-range id 5. -/
theorem C4_counterexample :
    5 ∈ (get_mesh_shells_core 1 fcOutOfRange).flatten ∧ ¬ 5 < 1 := by decide

/-- Amended claim C4: the BFS core performs no range validation on the
adjacency map.  An out-of-range id referenced by a reachable face is
traversed and included in shell membership like any other id; concretely,
`face_count = 1` with adjacency `{0: [5]}` yields `[[0, 5]]`. -/
theorem C4_no_validation :
    get_mesh_shells_core 1 fcOutOfRange = [[0, 5]] := by decide

/-! ### Material resolution (claims C9, C10) -/

theorem resolve_sgs_nil_iff (env : MayaEnv) : ∀ ml : List String,
    (resolveShadingGroups env ml).2 = [] ↔ ∀ m ∈ ml, env.objExists m = false := by
  intro ml
  induction ml with
  | nil => simp [resolveShadingGroups]
  | cons m rest ih =>
    by_cases hm : env.objExists m
    · cases hconn : env.listConnections m with
      | nil => simp [resolveShadingGroups, hm, hconn]
      | cons sg tl => simp [resolveShadingGroups, hm, hconn]
    · have hm' : env.objExists m = false := by
        cases h : env.objExists m
        · rfl
        · exact absurd h hm
      simp only [resolveShadingGroups, hm', Bool.false_eq_true, if_false]
      rw [List.forall_mem_cons]
      constructor
      · intro h
        exact ⟨hm', ih.1 h⟩
      · intro h
        exact ih.2 h.2

theorem resolve_sgs_warning (env : MayaEnv) : ∀ (ml : List String) (m : String),
    m ∈ ml → env.objExists m = false →
    MayaAction.warning ("Material does not exist: " ++ m) ∈
      (resolveShadingGroups env ml).1 := by
  intro ml
  induction ml with
  | nil => intro m h; cases h
  | cons a rest ih =>
    intro m hm hfalse
    rcases List.mem_cons.1 hm with rfl | hm'
    · have hres : (resolveShadingGroups env (m :: rest)).1 =
          MayaAction.warning ("Material does not exist: " ++ m) ::
            (resolveShadingGroups env rest).1 := by
        simp [resolveShadingGroups, hfalse]
      rw [hres]
      exact List.mem_cons_self _ _
    · by_cases ha : env.objExists a
      · cases hconn : env.listConnections a with
        | nil =>
          have hres : (resolveShadingGroups env (a :: rest)).1 =
              MayaAction.createSG (a ++ "SG") ::
                MayaAction.connectAttr (a ++ ".outColor") (a ++ "SG" ++ ".surfaceShader") ::
                (resolveShadingGroups env rest).1 := by
            simp [resolveShadingGroups, ha, hconn]
          rw [hres]
          exact List.mem_cons_of_mem _ (List.mem_cons_of_mem _ (ih m hm' hfalse))
        | cons sg tl =>
          have hres : (resolveShadingGroups env (a :: rest)).1 =
              (resolveShadingGroups env rest).1 := by
            simp [resolveShadingGroups, ha, hconn]
          rw [hres]
          exact ih m hm' hfalse
      · have ha' : env.objExists a = false := by
          cases h : env.objExists a
          · rfl
          · exact absurd h ha
        have hres : (resolveShadingGroups env (a :: rest)).1 =
            MayaAction.warning ("Material does not exist: " ++ a) ::
              (resolveShadingGroups env rest).1 := by
          simp [resolveShadingGroups, ha']
        rw [hres]
        exact List.mem_cons_of_mem _ (ih m hm' hfalse)

theorem resolve_sgs_mem (env : MayaEnv) : ∀ (ml : List String) (sg : String),
    sg ∈ (resolveShadingGroups env ml).2 →
    ∃ m ∈ ml, env.objExists m = true ∧
      (sg ∈ env.listConnections m ∨ sg = m ++ "SG") := by
  intro ml
  induction ml with
  | nil => intro sg h; simp [resolveShadingGroups] at h
  | cons a rest ih =>
    intro sg hsg
    by_cases ha : env.objExists a
    · cases hconn : env.listConnections a with
      | nil =>
        have hres : (resolveShadingGroups env (a :: rest)).2 =
            (a ++ "SG") :: (resolveShadingGroups env rest).2 := by
          simp [resolveShadingGroups, ha, hconn]
        rw [hres] at hsg
        rcases List.mem_cons.1 hsg with rfl | h'
        · exact ⟨a, List.mem_cons_self a rest, ha, Or.inr rfl⟩
        · obtain ⟨m, hm, h1, h2⟩ := ih sg h'
          exact ⟨m, List.mem_cons_of_mem a hm, h1, h2⟩
      | cons sg0 tl =>
        have hres : (resolveShadingGroups env (a :: rest)).2 =
            sg0 :: (resolveShadingGroups env rest).2 := by
          simp [resolveShadingGroups, ha, hconn]
        rw [hres] at hsg
        rcases List.mem_cons.1 hsg with rfl | h'
        · refine ⟨a, List.mem_cons_self a rest, ha, Or.inl ?_⟩
          rw [hconn]
          exact List.mem_cons_self _ _
        · obtain ⟨m, hm, h1, h2⟩ := ih sg h'
          exact ⟨m, List.mem_cons_of_mem a hm, h1, h2⟩
    · have ha' : env.objExists a = false := by
        cases h : env.objExists a
        · rfl
        · exact absurd h ha
      have hres : (resolveShadingGroups env (a :: rest)).2 =
          (resolveShadingGroups env rest).2 := by
        simp [resolveShadingGroups, ha']
      rw [hres] at hsg
      obtain ⟨m, hm, h1, h2⟩ := ih sg hsg
      exact ⟨m, List.mem_cons_of_mem a hm, h1, h2⟩

theorem getD_mem_of_lt (l : List String) (n : Nat) (h : n < l.length) :
    l.getD n "" ∈ l := by
  induction l generalizing n with
  | nil => simp at h
  | cons a tl ih =>
    cases n with
    | zero => exact List.mem_cons_self a tl
    | succ m => exact List.mem_cons_of_mem a (ih m (by simpa using h))

theorem assignShells_mem (rand : Nat → Nat) (sgs : List String) (hne : sgs ≠ []) :
    ∀ (shells : List (List String)) (k : Nat), ∀ s ∈ shells,
      ∃ sg ∈ sgs, MayaAction.assignSG s sg ∈ assignShells rand sgs k shells := by
  intro shells
  induction shells with
  | nil => intro k s h; cases h
  | cons sh rest ih =>
    intro k s hs
    rcases List.mem_cons.1 hs with rfl | hs'
    · have hlen : 0 < sgs.length := List.length_pos.2 hne
      refine ⟨sgs.getD (rand k % sgs.length) "",
        getD_mem_of_lt sgs _ (Nat.mod_lt _ hlen), ?_⟩
      show MayaAction.assignSG s (sgs.getD (rand k % sgs.length) "") ∈
        MayaAction.assignSG s (sgs.getD (rand k % sgs.length) "") ::
          assignShells rand sgs (k + 1) rest
      exact List.mem_cons_self _ _
    · obtain ⟨sg, h1, h2⟩ := ih (k + 1) s hs'
      refine ⟨sg, h1, ?_⟩
      show MayaAction.assignSG s sg ∈
        MayaAction.assignSG sh (sgs.getD (rand k % sgs.length) "") ::
          assignShells rand sgs (k + 1) rest
      exact List.mem_cons_of_mem _ h2

/-- Skipping unresolved materials (claim C10): for a non-empty material list,
every name that does not resolve gets a warning (not an error); the
no-available-shading-groups error fires iff no listed material resolves; and
when at least one resolves, the operation succeeds and every shell receives
an assignment whose shading group stems from a resolved material. -/
theorem C10_unresolved_materials (env : MayaEnv) (rand : Nat → Nat)
    (shells : List (List String)) (ml : List String) (hne : ml ≠ []) :
    ((assign_random_materials_from_list env rand shells ml).2 =
        some "No available shading groups for assignment."
      ↔ ∀ m ∈ ml, env.objExists m = false)
    ∧ (∀ m ∈ ml, env.objExists m = false →
        MayaAction.warning ("Material does not exist: " ++ m) ∈
          (assign_random_materials_from_list env rand shells ml).1)
    ∧ ((∃ m ∈ ml, env.objExists m = true) →
        (assign_random_materials_from_list env rand shells ml).2 = none ∧
        ∀ s ∈ shells, ∃ sg, MayaAction.assignSG s sg ∈
            (assign_random_materials_from_list env rand shells ml).1 ∧
          ∃ m ∈ ml, env.objExists m = true ∧
            (sg ∈ env.listConnections m ∨ sg = m ++ "SG")) := by
  have hml : ml.isEmpty = false := by
    cases ml with
    | nil => exact absurd rfl hne
    | cons a l => rfl
  by_cases hcase : (resolveShadingGroups env ml).2 = []
  · have hbr : assign_random_materials_from_list env rand shells ml =
        ((resolveShadingGroups env ml).1,
          some "No available shading groups for assignment.") := by
      simp [assign_random_materials_from_list, hml, hcase]
    refine ⟨?_, ?_, ?_⟩
    · rw [hbr]
      constructor
      · intro _
        exact (resolve_sgs_nil_iff env ml).1 hcase
      · intro _
        rfl
    · intro m hm hf
      rw [hbr]
      exact resolve_sgs_warning env ml m hm hf
    · rintro ⟨m, hm, htrue⟩
      have hf := (resolve_sgs_nil_iff env ml).1 hcase m hm
      rw [htrue] at hf
      cases hf
  · have hie : (resolveShadingGroups env ml).2.isEmpty = false := by
      cases h2 : (resolveShadingGroups env ml).2 with
      | nil => exact absurd h2 hcase
      | cons a l => rfl
    have hbr : assign_random_materials_from_list env rand shells ml =
        ((resolveShadingGroups env ml).1 ++
            assignShells rand (resolveShadingGroups env ml).2 0 shells, none) := by
      simp [assign_random_materials_from_list, hml, hie]
    refine ⟨?_, ?_, ?_⟩
    · rw [hbr]
      constructor
      · intro h
        simp at h
      · intro hall
        exact absurd ((resolve_sgs_nil_iff env ml).2 hall) hcase
    · intro m hm hf
      rw [hbr]
      exact List.mem_append_left _ (resolve_sgs_warning env ml m hm hf)
    · intro _
      rw [hbr]
      refine ⟨rfl, ?_⟩
      intro s hs
      obtain ⟨sg, hsgmem, hact⟩ :=
        assignShells_mem rand (resolveShadingGroups env ml).2 hcase shells 0 s hs
      obtain ⟨m, hm, h1, h2⟩ := resolve_sgs_mem env ml sg hsgmem
      exact ⟨sg, List.mem_append_right _ hact, m, hm, h1, h2⟩

theorem C10_unresolved_materials_witness :
    (assign_random_materials_from_list envW (fun _ => 0)
        [["obj.f[0]"]] ["matX", "mat1"]).2 = none :=
  ((C10_unresolved_materials envW (fun _ => 0) [["obj.f[0]"]] ["matX", "mat1"]
      (by decide)).2.2 ⟨"mat1", by decide, by decide⟩).1
